import Mathlib

set_option maxHeartbeats 1000000
set_option linter.unnecessarySimpa false
set_option linter.unusedSectionVars false

namespace Topo

/-- The single error kind of the library, mirroring the sentinel
`ErrCyclicDependency = errors.New("cyclic dependency detected")`. -/
inductive TopoError where
  | cyclicDependency
deriving DecidableEq

/-- One recorded entry of the graph: a value together with its declared
dependency list.  Mirrors `node[T]` in the source (`value T; deps []T`). -/
structure node (T : Type) where
  value : T
  deps : List T
deriving DecidableEq

/-- The dependency graph: the list of explicitly added entries, in insertion
order.  Mirrors `Graph[T]` in the source (`nodes []node[T]`). -/
structure Graph (T : Type) where
  nodes : List (node T)
deriving DecidableEq

/-- `AddNode` appends an entry to the graph, mirroring
`g.nodes = append(g.nodes, node[T]{value, deps})`. -/
def Graph.AddNode {T : Type} (g : Graph T) (value : T) (deps : List T) : Graph T :=
  ⟨g.nodes ++ [⟨value, deps⟩]⟩

instance {E A : Type} [DecidableEq E] [DecidableEq A] : DecidableEq (Except E A) := fun
  | Except.error e1, Except.error e2 =>
    match decEq e1 e2 with
    | isTrue h => isTrue (by rw [h])
    | isFalse h => isFalse (by intro hc; cases hc; exact h rfl)
  | Except.error _, Except.ok _ => isFalse (by intro hc; cases hc)
  | Except.ok _, Except.error _ => isFalse (by intro hc; cases hc)
  | Except.ok a1, Except.ok a2 =>
    match decEq a1 a2 with
    | isTrue h => isTrue (by rw [h])
    | isFalse h => isFalse (by intro hc; cases hc; exact h rfl)

variable {T : Type} [DecidableEq T]

/-- Lookup in an association list, first match wins.  Models a read of a Go
map represented as a list of key/value pairs with the most recent binding
first. -/
def alookup {V : Type} (m : List (T × V)) (k : T) : Option V :=
  match m with
  | [] => none
  | (k2, v) :: rest => if k = k2 then some v else alookup rest k

/-- The `dependsOn` map of `SortByLayers`, built by the pass
`dependsOn[node.value] = node.deps` over `g.nodes`.  A later entry for the
same value overwrites an earlier one, which the prepend-then-first-match
representation reproduces. -/
def dependsOnMap (g : Graph T) : List (T × List T) :=
  g.nodes.foldl (fun m n => (n.value, n.deps) :: m) []

/-- Result of looking up a value in the `dependsOn` map: `none` when the value
was never explicitly added, otherwise the most recently added list. -/
def effDepsOpt (g : Graph T) (v : T) : Option (List T) :=
  alookup (dependsOnMap g) v

/-- The dependency list `SortByLayers` actually consults for `v`: the most
recently added list, or `[]` when `v` has no entry.  Every use of the
`dependsOn` map in the source (initial layer, admission check, final cycle
check) is equivalent to this total function. -/
def effDeps (g : Graph T) (v : T) : List T :=
  (effDepsOpt g v).getD []

/-- The `dependedOnBy` reverse adjacency: for each entry `n` of `g.nodes` and
each occurrence of `v` in `n.deps`, the value `n.value` is appended, in
source order. -/
def dependedOnBy (g : Graph T) (v : T) : List T :=
  g.nodes.flatMap (fun n => (n.deps.filter (fun d => decide (d = v))).map (fun _ => n.value))

/-- Insertion into the `allValues` set: a Go map insert keeps the key set;
we keep first-insertion order as the canonical enumeration order. -/
def insertUnique (l : List T) (x : T) : List T :=
  if x ∈ l then l else l ++ [x]

/-- The `allValues` set of `SortByLayers`: every value inserted either as an
explicit node value or as a dependency target, in the order the build pass
first meets it. -/
def allValues (g : Graph T) : List T :=
  g.nodes.foldl (fun acc n => n.deps.foldl insertUnique (insertUnique acc n.value)) []

/-- The initial layer scan, parameterized by the enumeration order `ord` of
the `allValues` map (Go map iteration order is unspecified): keep every value
whose `dependsOn` entry is absent or empty. -/
def initialLayerOrd (g : Graph T) (ord : List T) : List T :=
  ord.filter (fun v => (effDeps g v).isEmpty)

/-- The initial layer under the canonical enumeration order. -/
def initialLayer (g : Graph T) : List T :=
  initialLayerOrd g (allValues g)

/-- One step of the next-layer scan for a candidate `dependent`: skip it when
already visited or already admitted to the layer being built (`acc` plays the
role of `nextLayer`, and membership in `acc` is exactly the `layerDepMap`
check); admit it when all of its `dependsOn` dependencies are visited. -/
def admitOne (g : Graph T) (visited acc : List T) (dependent : T) : List T :=
  if dependent ∈ visited ∨ dependent ∈ acc then acc
  else if ∀ d ∈ effDeps g dependent, d ∈ visited then acc ++ [dependent]
  else acc

/-- The next-layer computation: for each value of the current layer, scan its
`dependedOnBy` list with `admitOne`. -/
def computeNext (g : Graph T) (current visited : List T) : List T :=
  current.foldl (fun acc value => (dependedOnBy g value).foldl (admitOne g visited) acc) []

/-- The layer-peeling loop of `SortByLayers`: while the current layer is
non-empty, append it to the result, mark it visited, and compute the next
layer.  `fuel` is a structural termination bound; `SortByLayers` supplies
enough fuel that the zero case is never reached. -/
def loop (g : Graph T) (fuel : Nat) (current visited : List T)
    (result : List (List T)) : List (List T) × List T :=
  match fuel, current with
  | 0, _ => (result, visited)
  | _ + 1, [] => (result, visited)
  | fuel + 1, x :: xs =>
    loop g fuel (computeNext g (x :: xs) (visited ++ (x :: xs)))
      (visited ++ (x :: xs)) (result ++ [x :: xs])

/-- `SortByLayers`, parameterized by the enumeration order `ord` used for the
`allValues` map (both in the initial-layer scan and in the final residual
check).  On the residual check firing, the source returns
`nil, ErrCyclicDependency`; otherwise the accumulated layers. -/
def SortByLayersOrd (g : Graph T) (ord : List T) : Except TopoError (List (List T)) :=
  let p := loop g (ord.length + 1) (initialLayerOrd g ord) [] []
  if ∃ v ∈ ord, v ∉ p.2 ∧ effDeps g v ≠ [] then Except.error TopoError.cyclicDependency
  else Except.ok p.1

/-- `SortByLayers` under the canonical enumeration order. -/
def SortByLayers (g : Graph T) : Except TopoError (List (List T)) :=
  SortByLayersOrd g (allValues g)

/-- State-passing form of the method call `g.SortByLayers()`: the body only
reads `g.nodes` (all writes go to the local maps and slices), so the receiver
state handed back is the input graph unchanged. -/
def SortByLayersSt (g : Graph T) : Graph T × Except TopoError (List (List T)) :=
  (g, SortByLayers g)

/-- Index of the first layer containing `x`, if any. -/
def layerOf (layers : List (List T)) (x : T) : Option Nat :=
  match layers with
  | [] => none
  | l :: rest => if x ∈ l then some 0 else (layerOf rest x).map (· + 1)

/-- A recorded dependency edge: some `AddNode` call declared `b` in the
dependency list of `a`. -/
def declStep (g : Graph T) (a b : T) : Prop :=
  ∃ n ∈ g.nodes, n.value = a ∧ b ∈ n.deps

instance (g : Graph T) (a b : T) : Decidable (declStep g a b) := by
  unfold declStep; infer_instance

/-- An effective dependency edge: `b` is in the dependency list that
`SortByLayers` consults for `a`. -/
def stepOK (g : Graph T) (a b : T) : Prop :=
  b ∈ effDeps g a

/-- A path along effective dependency edges from `a` through the listed
intermediate values to `b`. -/
def pathOK (g : Graph T) : T → List T → T → Prop
  | a, [], b => stepOK g a b
  | a, x :: xs, b => stepOK g a x ∧ pathOK g x xs b

instance (g : Graph T) (a : T) (l : List T) (b : T) : Decidable (pathOK g a l b) := by
  induction l generalizing a with
  | nil => unfold pathOK stepOK; infer_instance
  | cons x xs ih => unfold pathOK; exact @instDecidableAnd _ _ (by unfold stepOK; infer_instance) (ih x)

/-- Two layer sequences of the same shape whose layers agree as sets. -/
def LayersEquiv (l1 l2 : List (List T)) : Prop :=
  l1.length = l2.length ∧ ∀ i x, x ∈ l1.getD i [] ↔ x ∈ l2.getD i []

/-- Two sort outcomes agree: same error, or layer sequences that agree as
sequences of sets. -/
def SameOutcome : Except TopoError (List (List T)) → Except TopoError (List (List T)) → Prop
  | Except.error e1, Except.error e2 => e1 = e2
  | Except.ok l1, Except.ok l2 => LayersEquiv l1 l2
  | _, _ => False

/-- Layering property: every value of every layer has all of its effective
dependencies inside `pre` or inside an earlier layer. -/
def LayeredOK (g : Graph T) : List T → List (List T) → Prop
  | _, [] => True
  | pre, l :: rest => (∀ v ∈ l, ∀ d ∈ effDeps g v, d ∈ pre) ∧ LayeredOK g (pre ++ l) rest

/-- Adjacency property: every value of a layer is a recorded dependent of
some value of the immediately preceding layer. -/
def AdjOK (g : Graph T) : List (List T) → Prop
  | [] => True
  | [_] => True
  | a :: b :: rest => (∀ v ∈ b, ∃ u ∈ a, v ∈ dependedOnBy g u) ∧ AdjOK g (b :: rest)

/-- The canonical loop run performed by `SortByLayers`. -/
def loopCanon (g : Graph T) : List (List T) × List T :=
  loop g ((allValues g).length + 1) (initialLayer g) [] []

/-- The `visited` set as it stands after the peeling loop of the canonical
run terminates. -/
def finalVisited (g : Graph T) : List T :=
  (loopCanon g).2

/-- Invariant of the layer-peeling loop, stated at the top of an iteration:
`result` holds the finalized layers, `visited` their concatenation, and
`current` the layer about to be finalized. -/
structure LoopInv (g : Graph T) (current visited : List T) (result : List (List T)) : Prop where
  hflat : visited = result.flatten
  hnd : (visited ++ current).Nodup
  hsub : ∀ v ∈ visited ++ current, v ∈ allValues g
  hdeps : ∀ v ∈ current, ∀ d ∈ effDeps g v, d ∈ visited
  hinit : ∀ v ∈ allValues g, effDeps g v = [] → v ∈ visited ++ current
  hne : ∀ l ∈ result, l ≠ []
  hlay : LayeredOK g [] result
  hadj : AdjOK g result
  hlink : result = [] ∨ ∀ v ∈ current, ∃ u ∈ result.getLastD [], v ∈ dependedOnBy g u

/-- What holds of the layer-peeling loop's final result and visited set. -/
structure LoopPost (g : Graph T) (res : List (List T)) (vis : List T) : Prop where
  pflat : vis = res.flatten
  pnd : vis.Nodup
  psub : ∀ v ∈ vis, v ∈ allValues g
  pinit : ∀ v ∈ allValues g, effDeps g v = [] → v ∈ vis
  pne : ∀ l ∈ res, l ≠ []
  play : LayeredOK g [] res
  padj : AdjOK g res

lemma mem_insertUnique {l : List T} {x y : T} :
    y ∈ insertUnique l x ↔ y ∈ l ∨ y = x := by
  unfold insertUnique
  by_cases h : x ∈ l
  · simp only [if_pos h]
    constructor
    · exact Or.inl
    · rintro (hy | rfl)
      · exact hy
      · exact h
  · simp [if_neg h]

lemma nodup_insertUnique {l : List T} {x : T} (h : l.Nodup) :
    (insertUnique l x).Nodup := by
  unfold insertUnique
  by_cases hx : x ∈ l
  · simpa [if_pos hx]
  · rw [if_neg hx]
    simpa [List.nodup_append] using ⟨h, hx⟩

lemma mem_foldl_insertUnique {y : T} :
    ∀ (l acc : List T), y ∈ l.foldl insertUnique acc ↔ y ∈ acc ∨ y ∈ l := by
  intro l
  induction l with
  | nil => simp
  | cons x xs ih =>
    intro acc
    rw [List.foldl_cons, ih, mem_insertUnique]
    constructor
    · rintro ((h | rfl) | h)
      · exact Or.inl h
      · exact Or.inr (List.mem_cons_self _ _)
      · exact Or.inr (List.mem_cons_of_mem _ h)
    · rintro (h | h)
      · exact Or.inl (Or.inl h)
      · rcases List.mem_cons.mp h with rfl | h
        · exact Or.inl (Or.inr rfl)
        · exact Or.inr h

lemma nodup_foldl_insertUnique :
    ∀ (l acc : List T), acc.Nodup → (l.foldl insertUnique acc).Nodup := by
  intro l
  induction l with
  | nil => simpa
  | cons x xs ih => intro acc h; exact ih _ (nodup_insertUnique h)

lemma mem_allValues {g : Graph T} {y : T} :
    y ∈ allValues g ↔ ∃ n ∈ g.nodes, y = n.value ∨ y ∈ n.deps := by
  unfold allValues
  suffices h : ∀ (ns : List (node T)) (acc : List T),
      y ∈ ns.foldl (fun acc n => n.deps.foldl insertUnique (insertUnique acc n.value)) acc ↔
        y ∈ acc ∨ ∃ n ∈ ns, y = n.value ∨ y ∈ n.deps by
    simpa using h g.nodes []
  intro ns
  induction ns with
  | nil => simp
  | cons n rest ih =>
    intro acc
    rw [List.foldl_cons, ih, mem_foldl_insertUnique, mem_insertUnique]
    constructor
    · rintro (((h | rfl) | h) | ⟨m, hm, hy⟩)
      · exact Or.inl h
      · exact Or.inr ⟨n, by simp⟩
      · exact Or.inr ⟨n, by simp [h]⟩
      · exact Or.inr ⟨m, by simp [hm], hy⟩
    · rintro (h | ⟨m, hm, hy⟩)
      · exact Or.inl (Or.inl (Or.inl h))
      · rcases List.mem_cons.mp hm with rfl | hm
        · rcases hy with rfl | hy
          · exact Or.inl (Or.inl (Or.inr rfl))
          · exact Or.inl (Or.inr hy)
        · exact Or.inr ⟨m, hm, hy⟩

lemma nodup_allValues {g : Graph T} : (allValues g).Nodup := by
  unfold allValues
  suffices h : ∀ (ns : List (node T)) (acc : List T), acc.Nodup →
      (ns.foldl (fun acc n => n.deps.foldl insertUnique (insertUnique acc n.value)) acc).Nodup by
    exact h g.nodes [] List.nodup_nil
  intro ns
  induction ns with
  | nil => simpa
  | cons n rest ih =>
    intro acc h
    exact ih _ (nodup_foldl_insertUnique _ _ (nodup_insertUnique h))

lemma mem_dependedOnBy {g : Graph T} {v d : T} :
    d ∈ dependedOnBy g v ↔ ∃ n ∈ g.nodes, n.value = d ∧ v ∈ n.deps := by
  unfold dependedOnBy
  simp only [List.mem_flatMap, List.mem_map, List.mem_filter, decide_eq_true_eq]
  constructor
  · rintro ⟨n, hn, x, ⟨hx, rfl⟩, rfl⟩
    exact ⟨n, hn, rfl, hx⟩
  · rintro ⟨n, hn, rfl, hv⟩
    exact ⟨n, hn, v, ⟨hv, rfl⟩, rfl⟩

lemma mem_dependedOnBy_allValues {g : Graph T} {v d : T}
    (h : d ∈ dependedOnBy g v) : d ∈ allValues g := by
  rcases mem_dependedOnBy.mp h with ⟨n, hn, rfl, _⟩
  exact mem_allValues.mpr ⟨n, hn, Or.inl rfl⟩

lemma mem_dependsOnMap {g : Graph T} {p : T × List T} :
    p ∈ dependsOnMap g ↔ ∃ n ∈ g.nodes, p = (n.value, n.deps) := by
  unfold dependsOnMap
  suffices h : ∀ (ns : List (node T)) (acc : List (T × List T)),
      p ∈ ns.foldl (fun m n => (n.value, n.deps) :: m) acc ↔
        p ∈ acc ∨ ∃ n ∈ ns, p = (n.value, n.deps) by
    simpa using h g.nodes []
  intro ns
  induction ns with
  | nil => simp
  | cons n rest ih =>
    intro acc
    rw [List.foldl_cons, ih]
    simp only [List.mem_cons]
    constructor
    · rintro ((h | h) | ⟨m, hm, hp⟩)
      · exact Or.inr ⟨n, by simp, h⟩
      · exact Or.inl h
      · exact Or.inr ⟨m, by simp [hm], hp⟩
    · rintro (h | ⟨m, hm, hp⟩)
      · exact Or.inl (Or.inr h)
      · rcases hm with rfl | hm
        · exact Or.inl (Or.inl hp)
        · exact Or.inr ⟨m, hm, hp⟩

lemma alookup_some_mem {V : Type} {m : List (T × V)} {k : T} {v : V}
    (h : alookup m k = some v) : (k, v) ∈ m := by
  induction m with
  | nil => simp [alookup] at h
  | cons p rest ih =>
    obtain ⟨k2, v2⟩ := p
    by_cases hk : k = k2
    · subst hk
      have h2 : v2 = v := by simpa [alookup] using h
      subst h2; simp
    · simp only [alookup, if_neg hk] at h
      exact List.mem_cons_of_mem _ (ih h)

lemma effDepsOpt_some_entry {g : Graph T} {v : T} {l : List T}
    (h : effDepsOpt g v = some l) : (⟨v, l⟩ : node T) ∈ g.nodes := by
  have hm := alookup_some_mem h
  rcases mem_dependsOnMap.mp hm with ⟨n, hn, hp⟩
  have hv : v = n.value := congrArg Prod.fst hp
  have hl : l = n.deps := congrArg Prod.snd hp
  subst hv; subst hl
  exact hn

lemma effDeps_ne_nil_entry {g : Graph T} {v : T}
    (h : effDeps g v ≠ []) : (⟨v, effDeps g v⟩ : node T) ∈ g.nodes := by
  unfold effDeps at h ⊢
  cases hopt : effDepsOpt g v with
  | none => rw [hopt] at h; simp at h
  | some l => simpa using effDepsOpt_some_entry hopt

lemma effDeps_ne_nil_mem_allValues {g : Graph T} {v : T}
    (h : effDeps g v ≠ []) : v ∈ allValues g :=
  mem_allValues.mpr ⟨_, effDeps_ne_nil_entry h, Or.inl rfl⟩

lemma mem_effDeps_mem_allValues {g : Graph T} {v d : T}
    (h : d ∈ effDeps g v) : d ∈ allValues g := by
  have hne : effDeps g v ≠ [] := by intro hc; rw [hc] at h; simp at h
  exact mem_allValues.mpr ⟨_, effDeps_ne_nil_entry hne, Or.inr h⟩

lemma mem_admitOne {g : Graph T} {visited acc : List T} {x y : T} :
    y ∈ admitOne g visited acc x ↔
      y ∈ acc ∨ (y = x ∧ y ∉ visited ∧ ∀ d ∈ effDeps g y, d ∈ visited) := by
  unfold admitOne
  by_cases h1 : x ∈ visited ∨ x ∈ acc
  · rw [if_pos h1]
    constructor
    · exact Or.inl
    · rintro (h | ⟨rfl, hnv, _⟩)
      · exact h
      · rcases h1 with h1 | h1
        · exact absurd h1 hnv
        · exact h1
  · rw [if_neg h1]
    push_neg at h1
    by_cases h2 : ∀ d ∈ effDeps g x, d ∈ visited
    · rw [if_pos h2]
      simp only [List.mem_append, List.mem_singleton]
      constructor
      · rintro (h | rfl)
        · exact Or.inl h
        · exact Or.inr ⟨rfl, h1.1, h2⟩
      · rintro (h | ⟨rfl, _, _⟩)
        · exact Or.inl h
        · exact Or.inr rfl
    · rw [if_neg h2]
      constructor
      · exact Or.inl
      · rintro (h | ⟨rfl, _, hd⟩)
        · exact h
        · exact absurd hd h2

lemma nodup_admitOne {g : Graph T} {visited acc : List T} {x : T}
    (h : acc.Nodup) : (admitOne g visited acc x).Nodup := by
  unfold admitOne
  by_cases h1 : x ∈ visited ∨ x ∈ acc
  · rwa [if_pos h1]
  · rw [if_neg h1]
    push_neg at h1
    by_cases h2 : ∀ d ∈ effDeps g x, d ∈ visited
    · rw [if_pos h2]
      simpa [List.nodup_append] using ⟨h, h1.2⟩
    · rwa [if_neg h2]

lemma mem_foldl_admitOne {g : Graph T} {visited : List T} {y : T} :
    ∀ (l acc : List T), y ∈ l.foldl (admitOne g visited) acc ↔
      y ∈ acc ∨ (y ∈ l ∧ y ∉ visited ∧ ∀ d ∈ effDeps g y, d ∈ visited) := by
  intro l
  induction l with
  | nil => simp
  | cons x xs ih =>
    intro acc
    rw [List.foldl_cons, ih, mem_admitOne]
    constructor
    · rintro ((h | ⟨rfl, hnv, hd⟩) | ⟨hm, hnv, hd⟩)
      · exact Or.inl h
      · exact Or.inr ⟨List.mem_cons_self _ _, hnv, hd⟩
      · exact Or.inr ⟨List.mem_cons_of_mem _ hm, hnv, hd⟩
    · rintro (h | ⟨hm, hnv, hd⟩)
      · exact Or.inl (Or.inl h)
      · rcases List.mem_cons.mp hm with rfl | hm
        · exact Or.inl (Or.inr ⟨rfl, hnv, hd⟩)
        · exact Or.inr ⟨hm, hnv, hd⟩

lemma nodup_foldl_admitOne {g : Graph T} {visited : List T} :
    ∀ (l acc : List T), acc.Nodup → (l.foldl (admitOne g visited) acc).Nodup := by
  intro l
  induction l with
  | nil => simpa
  | cons x xs ih => intro acc h; exact ih _ (nodup_admitOne h)

lemma mem_computeNext {g : Graph T} {current visited : List T} {y : T} :
    y ∈ computeNext g current visited ↔
      (∃ u ∈ current, y ∈ dependedOnBy g u) ∧ y ∉ visited ∧
        ∀ d ∈ effDeps g y, d ∈ visited := by
  unfold computeNext
  suffices h : ∀ (l acc : List T),
      y ∈ l.foldl (fun acc value => (dependedOnBy g value).foldl (admitOne g visited) acc) acc ↔
        y ∈ acc ∨ ((∃ u ∈ l, y ∈ dependedOnBy g u) ∧ y ∉ visited ∧
          ∀ d ∈ effDeps g y, d ∈ visited) by
    simpa using h current []
  intro l
  induction l with
  | nil => simp
  | cons x xs ih =>
    intro acc
    rw [List.foldl_cons, ih, mem_foldl_admitOne]
    constructor
    · rintro ((h | ⟨hm, hnv, hd⟩) | ⟨⟨u, hu, hm⟩, hnv, hd⟩)
      · exact Or.inl h
      · exact Or.inr ⟨⟨x, List.mem_cons_self _ _, hm⟩, hnv, hd⟩
      · exact Or.inr ⟨⟨u, List.mem_cons_of_mem _ hu, hm⟩, hnv, hd⟩
    · rintro (h | ⟨⟨u, hu, hm⟩, hnv, hd⟩)
      · exact Or.inl (Or.inl h)
      · rcases List.mem_cons.mp hu with rfl | hu
        · exact Or.inl (Or.inr ⟨hm, hnv, hd⟩)
        · exact Or.inr ⟨⟨u, hu, hm⟩, hnv, hd⟩

lemma nodup_computeNext {g : Graph T} {current visited : List T} :
    (computeNext g current visited).Nodup := by
  unfold computeNext
  suffices h : ∀ (l acc : List T), acc.Nodup →
      (l.foldl (fun acc value => (dependedOnBy g value).foldl (admitOne g visited) acc) acc).Nodup by
    exact h current [] List.nodup_nil
  intro l
  induction l with
  | nil => simpa
  | cons x xs ih => intro acc h; exact ih _ (nodup_foldl_admitOne _ _ h)

lemma layerOf_cons_of_mem {rest : List (List T)} {v : T} {l : List T}
    (h : v ∈ l) : layerOf (l :: rest) v = some 0 := by
  simp [layerOf, if_pos h]

lemma layerOf_cons_of_not_mem {rest : List (List T)} {v : T} {l : List T}
    (h : v ∉ l) : layerOf (l :: rest) v = (layerOf rest v).map (· + 1) := by
  simp [layerOf, if_neg h]

lemma layerOf_mem_flatten {layers : List (List T)} {v : T} {j : Nat}
    (h : layerOf layers v = some j) : v ∈ layers.flatten := by
  induction layers generalizing j with
  | nil => simp [layerOf] at h
  | cons l rest ih =>
    by_cases hv : v ∈ l
    · simp [hv]
    · rw [layerOf_cons_of_not_mem hv] at h
      rcases Option.map_eq_some'.mp h with ⟨j2, h2, _⟩
      simp only [List.flatten_cons, List.mem_append]
      exact Or.inr (ih h2)

lemma layerOf_of_mem_flatten {layers : List (List T)} {v : T}
    (h : v ∈ layers.flatten) : ∃ j, layerOf layers v = some j := by
  induction layers with
  | nil => simp at h
  | cons l rest ih =>
    by_cases hv : v ∈ l
    · exact ⟨0, layerOf_cons_of_mem hv⟩
    · rw [List.flatten_cons, List.mem_append] at h
      rcases h with h | h
      · exact absurd h hv
      · rcases ih h with ⟨j, hj⟩
        exact ⟨j + 1, by rw [layerOf_cons_of_not_mem hv, hj]; rfl⟩

lemma layeredOK_snoc {g : Graph T} {c : List T} :
    ∀ (layers : List (List T)) (pre : List T),
      LayeredOK g pre (layers ++ [c]) ↔
        LayeredOK g pre layers ∧ ∀ v ∈ c, ∀ d ∈ effDeps g v, d ∈ pre ++ layers.flatten := by
  intro layers
  induction layers with
  | nil => intro pre; simp [LayeredOK]
  | cons l rest ih =>
    intro pre
    show (_ ∧ LayeredOK g (pre ++ l) (rest ++ [c])) ↔ _
    rw [ih (pre ++ l)]
    simp only [LayeredOK, List.flatten_cons, List.append_assoc]
    tauto

lemma layered_lt {g : Graph T} {v d : T} :
    ∀ (layers : List (List T)) (pre : List T) (j : Nat),
      LayeredOK g pre layers → layerOf layers v = some j → d ∈ effDeps g v →
        d ∈ pre ∨ ∃ i, layerOf layers d = some i ∧ i < j := by
  intro layers
  induction layers with
  | nil => intro pre j _ h; simp [layerOf] at h
  | cons l rest ih =>
    intro pre j hlay hj hd
    obtain ⟨h1, h2⟩ := hlay
    by_cases hv : v ∈ l
    · rw [layerOf_cons_of_mem hv] at hj
      exact Or.inl (h1 v hv d hd)
    · rw [layerOf_cons_of_not_mem hv] at hj
      rcases Option.map_eq_some'.mp hj with ⟨j2, hj2, rfl⟩
      rcases ih (pre ++ l) j2 h2 hj2 hd with hmem | ⟨i2, hi2, hlt⟩
      · rcases List.mem_append.mp hmem with hmem | hmem
        · exact Or.inl hmem
        · exact Or.inr ⟨0, layerOf_cons_of_mem hmem, Nat.succ_pos _⟩
      · by_cases hdl : d ∈ l
        · exact Or.inr ⟨0, layerOf_cons_of_mem hdl, Nat.succ_pos _⟩
        · refine Or.inr ⟨i2 + 1, ?_, Nat.succ_lt_succ hlt⟩
          rw [layerOf_cons_of_not_mem hdl, hi2]; rfl

lemma adjOK_tail {g : Graph T} {a : List T} {rest : List (List T)}
    (h : AdjOK g (a :: rest)) : AdjOK g rest := by
  cases rest with
  | nil => trivial
  | cons b rest2 => exact h.2

lemma adjOK_snoc {g : Graph T} {c : List T} :
    ∀ (layers : List (List T)), AdjOK g layers →
      (layers = [] ∨ ∀ v ∈ c, ∃ u ∈ layers.getLastD [], v ∈ dependedOnBy g u) →
      AdjOK g (layers ++ [c]) := by
  intro layers
  induction layers with
  | nil => intro _ _; trivial
  | cons a rest ih =>
    intro hadj hlink
    rcases hlink with hlink | hlink
    · exact absurd hlink (by simp)
    cases rest with
    | nil =>
      refine ⟨?_, trivial⟩
      intro v hv
      simpa using hlink v hv
    | cons b rest2 =>
      refine ⟨hadj.1, ?_⟩
      refine ih hadj.2 (Or.inr ?_)
      intro v hv
      rcases hlink v hv with ⟨u, hu, hvu⟩
      refine ⟨u, ?_, hvu⟩
      simpa [List.getLastD_cons] using hu

lemma layerOf_zero_head {layers : List (List T)} {v : T}
    (h : layerOf layers v = some 0) :
    ∃ b rest2, layers = b :: rest2 ∧ v ∈ b := by
  cases layers with
  | nil => simp [layerOf] at h
  | cons b rest2 =>
    by_cases hv : v ∈ b
    · exact ⟨b, rest2, rfl, hv⟩
    · rw [layerOf_cons_of_not_mem hv] at h
      rcases Option.map_eq_some'.mp h with ⟨_, _, hc⟩
      exact absurd hc (Nat.succ_ne_zero _)

lemma adj_extract {g : Graph T} {v : T} :
    ∀ (layers : List (List T)) (j : Nat),
      AdjOK g layers → layers.flatten.Nodup → layerOf layers v = some (j + 1) →
        ∃ u, layerOf layers u = some j ∧ v ∈ dependedOnBy g u := by
  intro layers
  induction layers with
  | nil => intro j _ _ h; simp [layerOf] at h
  | cons a rest ih =>
    intro j hadj hnd hj
    by_cases hv : v ∈ a
    · rw [layerOf_cons_of_mem hv] at hj
      exact absurd (Option.some.injEq _ _ ▸ hj) (by simp)
    · rw [layerOf_cons_of_not_mem hv] at hj
      rcases Option.map_eq_some'.mp hj with ⟨j2, hj2, hj2e⟩
      rw [show j2 = j by omega] at hj2
      rw [List.flatten_cons, List.nodup_append] at hnd
      cases j with
      | zero =>
        rcases layerOf_zero_head hj2 with ⟨b, rest2, hrest, hvb⟩
        subst hrest
        rcases hadj.1 v hvb with ⟨u, hu, hvu⟩
        exact ⟨u, layerOf_cons_of_mem hu, hvu⟩
      | succ j3 =>
        rcases ih j3 (adjOK_tail hadj) hnd.2.1 hj2 with ⟨u, hu, hvu⟩
        have hua : u ∉ a := fun hc => hnd.2.2 hc (layerOf_mem_flatten hu)
        refine ⟨u, ?_, hvu⟩
        rw [layerOf_cons_of_not_mem hua, hu]; rfl

theorem loop_post (g : Graph T) :
    ∀ (fuel : Nat) (current visited : List T) (result : List (List T)),
      LoopInv g current visited result →
      (allValues g).length < fuel + visited.length →
      LoopPost g (loop g fuel current visited result).1 (loop g fuel current visited result).2 := by
  intro fuel
  induction fuel with
  | zero =>
    intro current visited result hinv hbound
    have hvnd : visited.Nodup := (List.nodup_append.mp hinv.hnd).1
    have hvsub : visited ⊆ allValues g :=
      fun v hv => hinv.hsub v (List.mem_append.mpr (Or.inl hv))
    have hlen := (List.subperm_of_subset hvnd hvsub).length_le
    omega
  | succ fuel ih =>
    intro current visited result hinv hbound
    cases current with
    | nil =>
      simp only [loop]
      exact { pflat := hinv.hflat
              pnd := by simpa using hinv.hnd
              psub := fun v hv => hinv.hsub v (by simpa using hv)
              pinit := fun v hv he => by simpa using hinv.hinit v hv he
              pne := hinv.hne
              play := hinv.hlay
              padj := hinv.hadj }
    | cons x xs =>
      simp only [loop]
      refine ih _ _ _ ⟨?_, ?_, ?_, ?_, ?_, ?_, ?_, ?_, ?_⟩ ?_
      · rw [hinv.hflat]; simp
      · rw [List.nodup_append]
        exact ⟨hinv.hnd, nodup_computeNext,
          fun y hy hy2 => (mem_computeNext.mp hy2).2.1 hy⟩
      · intro v hv
        rcases List.mem_append.mp hv with hv | hv
        · exact hinv.hsub v hv
        · obtain ⟨⟨u, _, hm⟩, _, _⟩ := mem_computeNext.mp hv
          exact mem_dependedOnBy_allValues hm
      · intro v hv d hd
        exact (mem_computeNext.mp hv).2.2 d hd
      · intro v hv he
        exact List.mem_append.mpr (Or.inl (hinv.hinit v hv he))
      · intro l hl
        rcases List.mem_append.mp hl with hl | hl
        · exact hinv.hne l hl
        · rw [List.mem_singleton.mp hl]; exact List.cons_ne_nil _ _
      · refine (layeredOK_snoc _ _).mpr ⟨hinv.hlay, ?_⟩
        intro v hv d hd
        have := hinv.hdeps v hv d hd
        rw [hinv.hflat] at this
        simpa using this
      · exact adjOK_snoc _ hinv.hadj hinv.hlink
      · refine Or.inr ?_
        intro v hv
        obtain ⟨⟨u, hu, hm⟩, _, _⟩ := mem_computeNext.mp hv
        exact ⟨u, by rw [List.getLastD_concat]; exact hu, hm⟩
      · simp only [List.length_append, List.length_cons]
        omega

lemma mem_initialLayer {g : Graph T} {v : T} :
    v ∈ initialLayer g ↔ v ∈ allValues g ∧ effDeps g v = [] := by
  unfold initialLayer initialLayerOrd
  rw [List.mem_filter]
  simp [List.isEmpty_iff]

theorem loopCanon_post (g : Graph T) : LoopPost g (loopCanon g).1 (loopCanon g).2 := by
  refine loop_post g _ _ _ _ ⟨?_, ?_, ?_, ?_, ?_, ?_, ?_, ?_, ?_⟩ ?_
  · rfl
  · simpa using List.Nodup.filter _ nodup_allValues
  · intro v hv
    exact (mem_initialLayer.mp (by simpa using hv)).1
  · intro v hv d hd
    rw [(mem_initialLayer.mp hv).2] at hd
    simp at hd
  · intro v hv he
    simpa using mem_initialLayer.mpr ⟨hv, he⟩
  · intro l hl; simp at hl
  · trivial
  · trivial
  · exact Or.inl rfl
  · simp

lemma sortByLayers_eq (g : Graph T) :
    SortByLayers g =
      if ∃ v ∈ allValues g, v ∉ (loopCanon g).2 ∧ effDeps g v ≠ [] then
        Except.error TopoError.cyclicDependency
      else Except.ok (loopCanon g).1 := rfl

lemma sort_ok_iff {g : Graph T} {layers : List (List T)} :
    SortByLayers g = Except.ok layers ↔
      layers = (loopCanon g).1 ∧
        ∀ v ∈ allValues g, v ∈ (loopCanon g).2 ∨ effDeps g v = [] := by
  rw [sortByLayers_eq]
  by_cases h : ∃ v ∈ allValues g, v ∉ (loopCanon g).2 ∧ effDeps g v ≠ []
  · rw [if_pos h]
    constructor
    · intro hc; cases hc
    · rintro ⟨_, hall⟩
      rcases h with ⟨v, hv, hnv, hne⟩
      rcases hall v hv with hm | he
      · exact absurd hm hnv
      · exact absurd he hne
  · rw [if_neg h]
    push_neg at h
    constructor
    · intro hc
      refine ⟨(Except.ok.injEq _ _).mp hc.symm, ?_⟩
      intro v hv
      by_cases hm : v ∈ (loopCanon g).2
      · exact Or.inl hm
      · exact Or.inr (h v hv hm)
    · rintro ⟨rfl, _⟩; rfl

lemma sort_err_iff {g : Graph T} :
    SortByLayers g = Except.error TopoError.cyclicDependency ↔
      ∃ v ∈ allValues g, v ∉ (loopCanon g).2 ∧ effDeps g v ≠ [] := by
  rw [sortByLayers_eq]
  by_cases h : ∃ v ∈ allValues g, v ∉ (loopCanon g).2 ∧ effDeps g v ≠ []
  · rw [if_pos h]; simpa using h
  · rw [if_neg h]
    constructor
    · intro hc; cases hc
    · intro hc; exact absurd hc h

lemma sortOk_flatten_eq_visited {g : Graph T} {layers : List (List T)}
    (h : SortByLayers g = Except.ok layers) : layers.flatten = (loopCanon g).2 := by
  rcases sort_ok_iff.mp h with ⟨rfl, _⟩
  exact ((loopCanon_post g).pflat).symm

lemma sortOk_mem_flatten {g : Graph T} {layers : List (List T)}
    (h : SortByLayers g = Except.ok layers) :
    ∀ v, v ∈ layers.flatten ↔ v ∈ allValues g := by
  intro v
  rcases sort_ok_iff.mp h with ⟨hl, hall⟩
  constructor
  · intro hv
    exact (loopCanon_post g).psub v (by rw [← sortOk_flatten_eq_visited h]; exact hv)
  · intro hv
    rw [sortOk_flatten_eq_visited h]
    rcases hall v hv with hm | he
    · exact hm
    · exact (loopCanon_post g).pinit v hv he

lemma sortOk_nodup_flatten {g : Graph T} {layers : List (List T)}
    (h : SortByLayers g = Except.ok layers) : layers.flatten.Nodup := by
  rw [sortOk_flatten_eq_visited h]
  exact (loopCanon_post g).pnd

lemma getD_concat :
    ∀ (l : List (List T)) (c : List T) (i : Nat),
      (l ++ [c]).getD i [] =
        if i < l.length then l.getD i [] else if i = l.length then c else [] := by
  intro l
  induction l with
  | nil =>
    intro c i
    cases i with
    | zero => simp
    | succ i => simp [List.getD]
  | cons a rest ih =>
    intro c i
    cases i with
    | zero => simp
    | succ i =>
      simp only [List.cons_append, List.getD_cons_succ, ih, List.length_cons]
      by_cases h1 : i < rest.length
      · rw [if_pos h1, if_pos (by omega : i + 1 < rest.length + 1)]
      · rw [if_neg h1, if_neg (by omega : ¬ i + 1 < rest.length + 1)]
        by_cases h2 : i = rest.length
        · rw [if_pos h2, if_pos (by omega : i + 1 = rest.length + 1)]
        · rw [if_neg h2, if_neg (by omega : ¬ i + 1 = rest.length + 1)]

lemma layersEquiv_snoc {r1 r2 : List (List T)} {c1 c2 : List T}
    (hr : LayersEquiv r1 r2) (hc : ∀ x, x ∈ c1 ↔ x ∈ c2) :
    LayersEquiv (r1 ++ [c1]) (r2 ++ [c2]) := by
  obtain ⟨hlen, hmem⟩ := hr
  refine ⟨by simp [hlen], ?_⟩
  intro i x
  rw [getD_concat, getD_concat, ← hlen]
  split_ifs
  · exact hmem i x
  · exact hc x
  · exact Iff.rfl

lemma loop_equiv (g : Graph T) :
    ∀ (fuel : Nat) (c1 v1 : List T) (r1 : List (List T))
      (c2 v2 : List T) (r2 : List (List T)),
      (∀ x, x ∈ c1 ↔ x ∈ c2) → (∀ x, x ∈ v1 ↔ x ∈ v2) → LayersEquiv r1 r2 →
      LayersEquiv (loop g fuel c1 v1 r1).1 (loop g fuel c2 v2 r2).1 ∧
        ∀ x, x ∈ (loop g fuel c1 v1 r1).2 ↔ x ∈ (loop g fuel c2 v2 r2).2 := by
  intro fuel
  induction fuel with
  | zero =>
    intro c1 v1 r1 c2 v2 r2 _ hv hr
    exact ⟨hr, hv⟩
  | succ fuel ih =>
    intro c1 v1 r1 c2 v2 r2 hc hv hr
    cases c1 with
    | nil =>
      cases c2 with
      | nil => exact ⟨hr, hv⟩
      | cons y ys =>
        exact absurd ((hc y).mpr (List.mem_cons_self _ _)) (List.not_mem_nil _)
    | cons x xs =>
      cases c2 with
      | nil =>
        exact absurd ((hc x).mp (List.mem_cons_self _ _)) (List.not_mem_nil _)
      | cons y ys =>
        simp only [loop]
        have hv2 : ∀ z, z ∈ v1 ++ x :: xs ↔ z ∈ v2 ++ y :: ys := by
          intro z
          rw [List.mem_append, List.mem_append, hv z, hc z]
        have hnext : ∀ z, z ∈ computeNext g (x :: xs) (v1 ++ x :: xs) ↔
            z ∈ computeNext g (y :: ys) (v2 ++ y :: ys) := by
          intro z
          rw [mem_computeNext, mem_computeNext]
          constructor
          · rintro ⟨⟨u, hu, hm⟩, hnv, hd⟩
            exact ⟨⟨u, (hc u).mp hu, hm⟩, fun hz => hnv ((hv2 z).mpr hz),
              fun d hd2 => (hv2 d).mp (hd d hd2)⟩
          · rintro ⟨⟨u, hu, hm⟩, hnv, hd⟩
            exact ⟨⟨u, (hc u).mpr hu, hm⟩, fun hz => hnv ((hv2 z).mp hz),
              fun d hd2 => (hv2 d).mpr (hd d hd2)⟩
        exact ih _ _ _ _ _ _ hnext hv2 (layersEquiv_snoc hr hc)

lemma sortByLayersOrd_eq (g : Graph T) (ord : List T) :
    SortByLayersOrd g ord =
      if ∃ v ∈ ord, v ∉ (loop g (ord.length + 1) (initialLayerOrd g ord) [] []).2 ∧
          effDeps g v ≠ [] then
        Except.error TopoError.cyclicDependency
      else Except.ok (loop g (ord.length + 1) (initialLayerOrd g ord) [] []).1 := rfl

lemma mem_initialLayerOrd {g : Graph T} {ord : List T} {v : T} :
    v ∈ initialLayerOrd g ord ↔ v ∈ ord ∧ effDeps g v = [] := by
  unfold initialLayerOrd
  rw [List.mem_filter]
  simp [List.isEmpty_iff]

lemma loop_avoid (g : Graph T) {s : List T}
    (hclosed : ∀ x ∈ s, ∃ y ∈ s, y ∈ effDeps g x) :
    ∀ (fuel : Nat) (current visited : List T) (result : List (List T)),
      (∀ x ∈ s, x ∉ visited ++ current) →
      ∀ x ∈ s, x ∉ (loop g fuel current visited result).2 := by
  intro fuel
  induction fuel with
  | zero =>
    intro current visited result h x hx
    exact fun hc => h x hx (List.mem_append.mpr (Or.inl hc))
  | succ fuel ih =>
    intro current visited result h
    cases current with
    | nil =>
      intro x hx
      exact fun hc => h x hx (List.mem_append.mpr (Or.inl hc))
    | cons c cs =>
      simp only [loop]
      refine ih _ _ _ ?_
      intro x hx hmem
      rcases List.mem_append.mp hmem with hmem | hmem
      · exact h x hx hmem
      · obtain ⟨_, _, hall⟩ := mem_computeNext.mp hmem
        rcases hclosed x hx with ⟨y, hy, hyx⟩
        exact h y hy (hall y hyx)

lemma pathOK_next (g : Graph T) :
    ∀ (l : List T) (a b : T), pathOK g a l b →
      ∀ x ∈ a :: l, ∃ y ∈ (a :: l) ++ [b], y ∈ effDeps g x := by
  intro l
  induction l with
  | nil =>
    intro a b hp x hx
    rcases List.mem_singleton.mp hx with rfl
    exact ⟨b, by simp, hp⟩
  | cons c cs ih =>
    intro a b hp x hx
    obtain ⟨h1, h2⟩ := hp
    rcases List.mem_cons.mp hx with rfl | hx
    · exact ⟨c, by simp, h1⟩
    · rcases ih c b h2 x hx with ⟨y, hy, hyx⟩
      refine ⟨y, ?_, hyx⟩
      rcases List.mem_append.mp hy with hy | hy
      · exact List.mem_append.mpr (Or.inl (List.mem_cons_of_mem _ hy))
      · exact List.mem_append.mpr (Or.inr hy)

lemma cycle_closed_set (g : Graph T) {v : T} {l : List T} (h : pathOK g v l v) :
    ∀ x ∈ v :: l, ∃ y ∈ v :: l, y ∈ effDeps g x := by
  intro x hx
  rcases pathOK_next g l v v h x hx with ⟨y, hy, hyx⟩
  refine ⟨y, ?_, hyx⟩
  rcases List.mem_append.mp hy with hy | hy
  · exact hy
  · rcases List.mem_singleton.mp hy with rfl
    exact List.mem_cons_self _ _

lemma loop_head_acc (g : Graph T) :
    ∀ (fuel : Nat) (current visited : List T) (result : List (List T)),
      result ≠ [] → ((loop g fuel current visited result).1).head? = result.head? := by
  intro fuel
  induction fuel with
  | zero => intro current visited result _; rfl
  | succ fuel ih =>
    intro current visited result hr
    cases current with
    | nil => rfl
    | cons c cs =>
      simp only [loop]
      rw [ih _ _ _ (by simp)]
      cases result with
      | nil => exact absurd rfl hr
      | cons a rest => simp

lemma sortOk_head {g : Graph T} {layers : List (List T)}
    (h : SortByLayers g = Except.ok layers) :
    layers.head? = if initialLayer g = [] then none else some (initialLayer g) := by
  rcases sort_ok_iff.mp h with ⟨rfl, _⟩
  unfold loopCanon
  cases hI : initialLayer g with
  | nil =>
    rw [if_pos rfl]
    simp [loop]
  | cons x xs =>
    rw [if_neg (by simp)]
    simp only [loop]
    rw [loop_head_acc _ _ _ _ _ (by simp)]
    simp

/-- C1 counterexample: in the graph built by `AddNode(0, [1]); AddNode(0, [])`
the edge (dependent 0, prerequisite 1) was recorded by an `AddNode` call, the
sort succeeds, yet prerequisite 1 sits in layer 0 — the same layer index as
dependent 0, not a strictly smaller one.  The second `AddNode` overwrote the
`dependsOn` entry of 0, so the recorded edge is not enforced. -/
theorem claim1_counterexample :
    declStep (⟨[⟨0, [1]⟩, ⟨0, []⟩]⟩ : Graph Nat) 0 1 ∧
      SortByLayers (⟨[⟨0, [1]⟩, ⟨0, []⟩]⟩ : Graph Nat) = Except.ok [[0, 1]] ∧
      layerOf ([[0, 1]] : List (List Nat)) 1 = some 0 ∧
      layerOf ([[0, 1]] : List (List Nat)) 0 = some 0 := by
  decide

/-- C1 (amended): for every effective dependency edge — the prerequisite `d`
occurs in the dependency list `SortByLayers` consults for `v`, i.e. the most
recently added list of `v` — if the sort succeeds then the layer index of the
prerequisite is strictly less than the layer index of the dependent. -/
theorem claim1_effective_edges_ordered (g : Graph T) (layers : List (List T)) (v d : T)
    (hok : SortByLayers g = Except.ok layers) (hd : d ∈ effDeps g v) :
    ∃ i j, layerOf layers d = some i ∧ layerOf layers v = some j ∧ i < j := by
  have hvA : v ∈ allValues g :=
    effDeps_ne_nil_mem_allValues (fun hc => by rw [hc] at hd; simp at hd)
  have hdA : d ∈ allValues g := mem_effDeps_mem_allValues hd
  have hvF : v ∈ layers.flatten := (sortOk_mem_flatten hok v).mpr hvA
  have hdF : d ∈ layers.flatten := (sortOk_mem_flatten hok d).mpr hdA
  rcases layerOf_of_mem_flatten hvF with ⟨j, hj⟩
  have hplay : LayeredOK g [] layers := by
    rcases sort_ok_iff.mp hok with ⟨rfl, _⟩
    exact (loopCanon_post g).play
  rcases layered_lt layers [] j hplay hj hd with hmem | ⟨i, hi, hij⟩
  · simp at hmem
  · exact ⟨i, j, hi, hj, hij⟩

/-- Witness for C1's amended theorem at the graph
`AddNode(0, []); AddNode(1, [0])`. -/
theorem claim1_effective_edges_ordered_witness :
    ∃ i j, layerOf ([[0], [1]] : List (List Nat)) 0 = some i ∧
      layerOf ([[0], [1]] : List (List Nat)) 1 = some j ∧ i < j :=
  claim1_effective_edges_ordered ⟨[⟨0, []⟩, ⟨1, [0]⟩]⟩ [[0], [1]] 1 0 (by decide) (by decide)

/-- C2: on success the concatenation of the returned layers contains exactly
the distinct identities appearing anywhere in the graph — as an explicitly
added node value or as a dependency target — each exactly once. -/
theorem claim2_coverage (g : Graph T) (layers : List (List T))
    (hok : SortByLayers g = Except.ok layers) :
    (∀ v, v ∈ layers.flatten ↔ ∃ n ∈ g.nodes, v = n.value ∨ v ∈ n.deps) ∧
      layers.flatten.Nodup := by
  refine ⟨?_, sortOk_nodup_flatten hok⟩
  intro v
  rw [sortOk_mem_flatten hok v, mem_allValues]

/-- Witness for C2 at the four-node diamond graph from the repository tests. -/
theorem claim2_coverage_witness :
    (4 ∈ ([[1], [2, 3], [4]] : List (List Nat)).flatten ↔
      ∃ n ∈ (⟨[⟨1, []⟩, ⟨2, [1]⟩, ⟨3, [1]⟩, ⟨4, [2, 3]⟩]⟩ : Graph Nat).nodes,
        4 = n.value ∨ 4 ∈ n.deps) ∧
      ([[1], [2, 3], [4]] : List (List Nat)).flatten.Nodup :=
  ⟨(claim2_coverage ⟨[⟨1, []⟩, ⟨2, [1]⟩, ⟨3, [1]⟩, ⟨4, [2, 3]⟩]⟩ [[1], [2, 3], [4]]
      (by decide)).1 4,
    (claim2_coverage ⟨[⟨1, []⟩, ⟨2, [1]⟩, ⟨3, [1]⟩, ⟨4, [2, 3]⟩]⟩ [[1], [2, 3], [4]]
      (by decide)).2⟩

/-- C5: every identity placed in layer `j + 1` has at least one of its
declared dependencies (some `AddNode` entry for it lists that value) present
in layer `j`, so it could not have appeared earlier. -/
theorem claim5_maximality (g : Graph T) (layers : List (List T)) (v : T) (j : Nat)
    (hok : SortByLayers g = Except.ok layers) (hv : layerOf layers v = some (j + 1)) :
    ∃ u, layerOf layers u = some j ∧ ∃ n ∈ g.nodes, n.value = v ∧ u ∈ n.deps := by
  have hnd : layers.flatten.Nodup := sortOk_nodup_flatten hok
  have hadj : AdjOK g layers := by
    rcases sort_ok_iff.mp hok with ⟨rfl, _⟩
    exact (loopCanon_post g).padj
  rcases adj_extract layers j hadj hnd hv with ⟨u, hu, hdep⟩
  exact ⟨u, hu, mem_dependedOnBy.mp hdep⟩

/-- Witness for C5 at the chain `AddNode(5, []); AddNode(6, [5])`. -/
theorem claim5_maximality_witness :
    ∃ u, layerOf ([[5], [6]] : List (List Nat)) u = some 0 ∧
      ∃ n ∈ (⟨[⟨5, []⟩, ⟨6, [5]⟩]⟩ : Graph Nat).nodes, n.value = 6 ∧ u ∈ n.deps :=
  claim5_maximality ⟨[⟨5, []⟩, ⟨6, [5]⟩]⟩ [[5], [6]] 6 0 (by decide) (by decide)

/-- C6: the sort returns the cyclic-dependency error exactly when, after the
peeling loop terminates, some identity that was explicitly added with a
non-empty dependency list was never visited; the error value is the single
`cyclicDependency` sentinel and (by the `Except` shape) no layers are
returned alongside it. -/
theorem claim6_error_characterization (g : Graph T) :
    SortByLayers g = Except.error TopoError.cyclicDependency ↔
      ∃ n ∈ g.nodes, n.deps ≠ [] ∧ n.value ∉ finalVisited g := by
  unfold finalVisited
  rw [sort_err_iff]
  constructor
  · rintro ⟨v, hv, hnv, hne⟩
    exact ⟨⟨v, effDeps g v⟩, effDeps_ne_nil_entry hne, hne, hnv⟩
  · rintro ⟨n, hn, hdne, hnv⟩
    have hvA : n.value ∈ allValues g := mem_allValues.mpr ⟨n, hn, Or.inl rfl⟩
    refine ⟨n.value, hvA, hnv, ?_⟩
    intro he
    exact hnv ((loopCanon_post g).pinit n.value hvA he)

/-- C9: the state-passing form of the method call hands the receiver back
unchanged — `SortByLayers` reads `g.nodes` but never writes it — while
producing the usual result. -/
theorem claim9_no_mutation (g : Graph T) :
    (SortByLayersSt g).1 = g ∧ (SortByLayersSt g).2 = SortByLayers g :=
  ⟨rfl, rfl⟩

/-- C10: on success every returned layer is non-empty (the loop only appends
a layer it found non-empty), and the empty graph yields the empty layer
sequence with no error. -/
theorem claim10_layers_nonempty (g : Graph T) :
    (∀ layers, SortByLayers g = Except.ok layers → ∀ l ∈ layers, l ≠ []) ∧
      (g.nodes = [] → SortByLayers g = Except.ok []) := by
  constructor
  · intro layers hok l hl
    rcases sort_ok_iff.mp hok with ⟨rfl, _⟩
    exact (loopCanon_post g).pne l hl
  · intro h
    have hA : allValues g = [] := by unfold allValues; rw [h]; rfl
    have hI : initialLayer g = [] := by
      unfold initialLayer initialLayerOrd; rw [hA]; rfl
    have hc : loopCanon g = ([], []) := by
      unfold loopCanon; rw [hA, hI]; rfl
    rw [sortByLayers_eq, hc, hA]
    simp

/-- Witness for C10 at the empty graph. -/
theorem claim10_layers_nonempty_witness :
    SortByLayers (⟨[]⟩ : Graph Nat) = Except.ok [] :=
  (claim10_layers_nonempty ⟨[]⟩).2 rfl

/-- C3 counterexample: the graph built by
`AddNode(0, [1]); AddNode(1, [0]); AddNode(0, [])` contains a cycle among
explicitly-declared dependency edges (0 → 1 and 1 → 0), yet the sort
succeeds, because the final `AddNode` overwrote the `dependsOn` entry of 0
with an empty list. -/
theorem claim3_counterexample :
    declStep (⟨[⟨0, [1]⟩, ⟨1, [0]⟩, ⟨0, []⟩]⟩ : Graph Nat) 0 1 ∧
      declStep (⟨[⟨0, [1]⟩, ⟨1, [0]⟩, ⟨0, []⟩]⟩ : Graph Nat) 1 0 ∧
      SortByLayers (⟨[⟨0, [1]⟩, ⟨1, [0]⟩, ⟨0, []⟩]⟩ : Graph Nat) =
        Except.ok [[0], [1]] := by
  decide

/-- C3 (amended): for every graph containing at least one cycle among the
effective dependency edges — each identity's enforced list being the most
recently added one, self-dependencies included as the one-step cycle —
`SortByLayers` returns the cyclic-dependency error and no layers. -/
theorem claim3_effective_cycle_error (g : Graph T) (v : T) (l : List T)
    (h : pathOK g v l v) :
    SortByLayers g = Except.error TopoError.cyclicDependency := by
  have hclosed := cycle_closed_set g h
  have hne : effDeps g v ≠ [] := by
    rcases hclosed v (List.mem_cons_self _ _) with ⟨y, _, hy⟩
    intro hc; rw [hc] at hy; simp at hy
  have hvA : v ∈ allValues g := effDeps_ne_nil_mem_allValues hne
  refine sort_err_iff.mpr ⟨v, hvA, ?_, hne⟩
  unfold loopCanon
  refine loop_avoid g hclosed _ _ _ _ ?_ v (List.mem_cons_self _ _)
  intro x hx hmem
  have hx2 : effDeps g x ≠ [] := by
    rcases hclosed x hx with ⟨y, _, hy⟩
    intro hc; rw [hc] at hy; simp at hy
  exact hx2 (mem_initialLayer.mp (by simpa using hmem)).2

/-- Witness for C3's amended theorem at the three-cycle
`AddNode(0, [1]); AddNode(1, [2]); AddNode(2, [0])`. -/
theorem claim3_effective_cycle_error_witness :
    SortByLayers (⟨[⟨0, [1]⟩, ⟨1, [2]⟩, ⟨2, [0]⟩]⟩ : Graph Nat) =
      Except.error TopoError.cyclicDependency :=
  claim3_effective_cycle_error _ 0 [1, 2] (by decide)

/-- C4 counterexample: in the graph built by
`AddNode(0, [1]); AddNode(0, []); AddNode(1, [2]); AddNode(2, [])` the first
entry of 0 declares prerequisite 1, yet the sort places dependent 0 in layer
0 and prerequisite 1 in layer 1 — the earlier dependency list is not
enforced, so the union of the two lists does not constrain 0's layer. -/
theorem claim4_counterexample :
    declStep (⟨[⟨0, [1]⟩, ⟨0, []⟩, ⟨1, [2]⟩, ⟨2, []⟩]⟩ : Graph Nat) 0 1 ∧
      SortByLayers (⟨[⟨0, [1]⟩, ⟨0, []⟩, ⟨1, [2]⟩, ⟨2, []⟩]⟩ : Graph Nat) =
        Except.ok [[0, 2], [1]] ∧
      layerOf ([[0, 2], [1]] : List (List Nat)) 1 = some 1 ∧
      layerOf ([[0, 2], [1]] : List (List Nat)) 0 = some 0 := by
  decide

/-- C4 (amended): when the same identity is added twice, both entries are
retained independently in the graph's node list, but the `dependsOn` map is
built by overwriting, so the dependency list `SortByLayers` enforces for the
identity is exactly the most recently added one — not the union. -/
theorem claim4_duplicate_add_last_wins (g : Graph T) (v : T) (ds1 ds2 : List T) :
    (⟨v, ds1⟩ : node T) ∈ (Graph.AddNode (Graph.AddNode g v ds1) v ds2).nodes ∧
      (⟨v, ds2⟩ : node T) ∈ (Graph.AddNode (Graph.AddNode g v ds1) v ds2).nodes ∧
      effDeps (Graph.AddNode (Graph.AddNode g v ds1) v ds2) v = ds2 := by
  refine ⟨by simp [Graph.AddNode], by simp [Graph.AddNode], ?_⟩
  have hmap : dependsOnMap (Graph.AddNode (Graph.AddNode g v ds1) v ds2) =
      (v, ds2) :: (v, ds1) :: dependsOnMap g := by
    unfold dependsOnMap Graph.AddNode
    simp [List.foldl_append]
  unfold effDeps effDepsOpt
  rw [hmap]
  simp [alookup]

lemma effDeps_eq_nil_iff {g : Graph T} {v : T} :
    effDeps g v = [] ↔ effDepsOpt g v = none ∨ effDepsOpt g v = some [] := by
  unfold effDeps
  cases h : effDepsOpt g v <;> simp

/-- C7: on success the first returned layer consists of exactly the
identities whose `dependsOn` entry is absent or empty (explicit nodes added
with an empty list together with implicit, dependency-only identities), and
concretely adding only `AddNode(0, [1])` yields the layers `[[1], [0]]`. -/
theorem claim7_first_layer (g : Graph T) :
    (∀ layers, SortByLayers g = Except.ok layers →
      ∀ v, v ∈ layers.headD [] ↔
        v ∈ allValues g ∧ (effDepsOpt g v = none ∨ effDepsOpt g v = some [])) ∧
      SortByLayers (⟨[⟨0, [1]⟩]⟩ : Graph Nat) = Except.ok [[1], [0]] := by
  constructor
  · intro layers hok v
    have hh := sortOk_head hok
    by_cases hI : initialLayer g = []
    · rw [if_pos hI] at hh
      have hnil : layers = [] := by
        cases layers with
        | nil => rfl
        | cons a rest => simp at hh
      subst hnil
      simp only [List.headD_nil, List.not_mem_nil, false_iff]
      rintro ⟨hvA, hopt⟩
      have : v ∈ initialLayer g :=
        mem_initialLayer.mpr ⟨hvA, effDeps_eq_nil_iff.mpr hopt⟩
      rw [hI] at this
      simp at this
    · rw [if_neg hI] at hh
      have hhd : layers.headD [] = initialLayer g := by
        cases layers with
        | nil => simp at hh
        | cons a rest =>
          simp only [List.head?_cons, Option.some.injEq] at hh
          simpa using hh
      rw [hhd, mem_initialLayer, effDeps_eq_nil_iff]
  · decide

/-- Witness for C7 at the implicit-node graph `AddNode(0, [1])`. -/
theorem claim7_first_layer_witness :
    1 ∈ ([[1], [0]] : List (List Nat)).headD [] ↔
      1 ∈ allValues (⟨[⟨0, [1]⟩]⟩ : Graph Nat) ∧
        (effDepsOpt (⟨[⟨0, [1]⟩]⟩ : Graph Nat) 1 = none ∨
          effDepsOpt (⟨[⟨0, [1]⟩]⟩ : Graph Nat) 1 = some []) :=
  (claim7_first_layer ⟨[⟨0, [1]⟩]⟩).1 [[1], [0]] (by decide) 1

/-- C8: running the sort with any two enumeration orders of the `allValues`
map — the only unspecified-iteration-order state the algorithm reads — gives
the same outcome: the same error, or layer sequences of equal length that
agree at every index as sets. -/
theorem claim8_structure_determinism (g : Graph T) (ord1 ord2 : List T)
    (h1 : ord1.Perm (allValues g)) (h2 : ord2.Perm (allValues g)) :
    SameOutcome (SortByLayersOrd g ord1) (SortByLayersOrd g ord2) := by
  have hlen : ord2.length = ord1.length := by rw [h1.length_eq, h2.length_eq]
  have hmem : ∀ x, x ∈ ord1 ↔ x ∈ ord2 := fun x => by rw [h1.mem_iff, h2.mem_iff]
  have hinit : ∀ x, x ∈ initialLayerOrd g ord1 ↔ x ∈ initialLayerOrd g ord2 := by
    intro x; rw [mem_initialLayerOrd, mem_initialLayerOrd, hmem x]
  have hequiv := loop_equiv g (ord1.length + 1) (initialLayerOrd g ord1) [] []
    (initialLayerOrd g ord2) [] [] hinit (fun x => Iff.rfl) ⟨rfl, fun i x => Iff.rfl⟩
  have hcond :
      (∃ v ∈ ord1,
        v ∉ (loop g (ord1.length + 1) (initialLayerOrd g ord1) [] []).2 ∧
          effDeps g v ≠ []) ↔
      (∃ v ∈ ord2,
        v ∉ (loop g (ord1.length + 1) (initialLayerOrd g ord2) [] []).2 ∧
          effDeps g v ≠ []) := by
    constructor
    · rintro ⟨v, hv, hnv, hne⟩
      exact ⟨v, (hmem v).mp hv, fun hc => hnv ((hequiv.2 v).mpr hc), hne⟩
    · rintro ⟨v, hv, hnv, hne⟩
      exact ⟨v, (hmem v).mpr hv, fun hc => hnv ((hequiv.2 v).mp hc), hne⟩
  rw [sortByLayersOrd_eq, sortByLayersOrd_eq, hlen]
  by_cases hc : ∃ v ∈ ord1,
      v ∉ (loop g (ord1.length + 1) (initialLayerOrd g ord1) [] []).2 ∧
        effDeps g v ≠ []
  · rw [if_pos hc, if_pos (hcond.mp hc)]
    exact rfl
  · rw [if_neg hc, if_neg (fun hcc => hc (hcond.mpr hcc))]
    exact hequiv.1

/-- Witness for C8 at the chain `AddNode(0, []); AddNode(1, [0])`, comparing
the canonical enumeration order with its reverse. -/
theorem claim8_structure_determinism_witness :
    SameOutcome (SortByLayersOrd (⟨[⟨0, []⟩, ⟨1, [0]⟩]⟩ : Graph Nat) [0, 1])
      (SortByLayersOrd (⟨[⟨0, []⟩, ⟨1, [0]⟩]⟩ : Graph Nat) [1, 0]) :=
  claim8_structure_determinism _ [0, 1] [1, 0] (by decide) (by decide)

end Topo
